import Mathlib

/-!
Shallow embedding of the Desktop-Widget animation core
(src/ball.c and src/mandelbrot.c) and proofs of its specified
properties.

Machine integers are modelled as `Int`/`Nat` with explicit wrapping:
`toInt32` reduces a value into the signed 32-bit range exactly where the
C code stores into an `int32_t` (the Q4.28 fixed-point type `fx`), and
`% 65536` / `% 2^32` appear where `uint16_t` / `uint32_t` wrap.
-/

namespace DW

/-! ## Fixed-point kernel (mandelbrot.c, `typedef int32_t fx`, Q4.28) -/

/-- Reduction of an integer into the value range of a C `int32_t`,
as performed by the (implementation-defined, wrap-around) narrowing
casts in the source. -/
def toInt32 (x : Int) : Int := (x + 2 ^ 31) % 2 ^ 32 - 2 ^ 31

/-- FX_ONE = 1 << 28. -/
def FX_ONE : Int := 2 ^ 28

/-- FX_FOUR = 4 << 28. -/
def FX_FOUR : Int := 2 ^ 30

/-- fx_mul: 64-bit product, arithmetic shift right by 28 (floor division),
then narrowed back to `int32_t`. -/
def fx_mul (a b : Int) : Int := toInt32 (Int.fdiv (a * b) (2 ^ 28))

/-- fx_add: 32-bit addition. -/
def fx_add (a b : Int) : Int := toInt32 (a + b)

/-- fx_sub: 32-bit subtraction. -/
def fx_sub (a b : Int) : Int := toInt32 (a - b)

/-- fx_from_double(0.985), the zoom factor: truncation of
0.985 * 2^28 = 264408924.16 toward zero. -/
def ZOOM_FX : Int := 264408924

/-! ## Ball animation engine (ball.c) -/

/-- Modelled from the spec: the screen geometry constants SCREEN_WIDTH and
SCREEN_HEIGHT come from the external display library (not in this
repository); the spec fixes them at 320x240 for this configuration. -/
def SCREEN_WIDTH : Int := 320

/-- Modelled from the spec: see SCREEN_WIDTH. -/
def SCREEN_HEIGHT : Int := 240

/-- BORDER in ball.c and mandelbrot.c. -/
def BORDER : Int := 1

/-- MAX_R in ball.c. -/
def MAX_R : Int := 32

/-- Inner while loop of precompute_circle: starting from `x`, decrement
while `x > 0 && x*x + dy*dy > rr`. -/
def circX (rr dysq : Nat) : Nat → Nat
  | 0 => 0
  | x + 1 => if (x + 1) * (x + 1) + dysq > rr then circX rr dysq x else x + 1

/-- Entry `halfw[dy]` of the table written by precompute_circle(r):
the while loop is started at `x = r` with `rr = r*r`. -/
def halfw (r dy : Nat) : Nat := circX (r * r) (dy * dy) r

/-- The 7-entry RGB565 palette of next_corner_color. -/
def cornerColors : List Nat := [0xF800, 0x07E0, 0x001F, 0xFFE0, 0xF81F, 0x07FF, 0xFFFF]

/-- The scan loop of next_corner_color: first index `i` (counting from the
given accumulator) whose color equals `cur`. -/
def cornerFind (cur : Nat) : List Nat → Nat → Option Nat
  | [], _ => none
  | c :: rest, i => if c = cur then some i else cornerFind cur rest (i + 1)

/-- next_corner_color: return `colors[(i+1) % 7]` for the first matching
index `i`, or `colors[0]` when `cur` is not in the palette. -/
def nextCornerColor (cur : Nat) : Nat :=
  match cornerFind cur cornerColors 0 with
  | some i => cornerColors.getD ((i + 1) % 7) 0
  | none => 0xF800

/-- The Bouncer struct of ball.h (colors are RGB565 values). -/
structure Bouncer where
  cx : Int
  cy : Int
  vx : Int
  vy : Int
  r : Int
  color : Nat
  bg : Nat
  border : Nat
deriving Repr, DecidableEq

/-- bouncer_init: clamp the radius to MAX_R from above and center the
ball; drawing calls touch only the display, not the state. -/
def bouncer_init (radius vx vy : Int) (bg_color border_color initial_color : Nat) :
    Bouncer :=
  let radius := if radius > MAX_R then MAX_R else radius
  { cx := SCREEN_WIDTH / 2
    cy := SCREEN_HEIGHT / 2
    vx := vx
    vy := vy
    r := radius
    color := initial_color
    bg := bg_color
    border := border_color }

/-- bouncer_tick: advance by velocity, then the four sequential boundary
clamps (the x-high test reads the x value already clamped by the x-low
test, and likewise for y), then the corner color change.  Drawing calls
touch only the display. -/
def bouncer_tick (b : Bouncer) : Bouncer :=
  let min_x : Int := BORDER + b.r
  let max_x : Int := (SCREEN_WIDTH - 1 - BORDER) - b.r
  let min_y : Int := BORDER + b.r
  let max_y : Int := (SCREEN_HEIGHT - 1 - BORDER) - b.r
  let cx0 := b.cx + b.vx
  let cy0 := b.cy + b.vy
  let cx1 := if cx0 ≤ min_x then min_x else cx0
  let vx1 := if cx0 ≤ min_x then -b.vx else b.vx
  let cx2 := if cx1 ≥ max_x then max_x else cx1
  let vx2 := if cx1 ≥ max_x then -vx1 else vx1
  let hit_v := cx0 ≤ min_x ∨ cx1 ≥ max_x
  let cy1 := if cy0 ≤ min_y then min_y else cy0
  let vy1 := if cy0 ≤ min_y then -b.vy else b.vy
  let cy2 := if cy1 ≥ max_y then max_y else cy1
  let vy2 := if cy1 ≥ max_y then -vy1 else vy1
  let hit_h := cy0 ≤ min_y ∨ cy1 ≥ max_y
  let color := if hit_v ∧ hit_h then nextCornerColor b.color else b.color
  { b with cx := cx2, cy := cy2, vx := vx2, vy := vy2, color := color }

/-- The x-axis registered a boundary hit during bouncer_tick
(`hit_v` in the source), expressed on the pre-tick state. -/
def hitV (b : Bouncer) : Prop :=
  b.cx + b.vx ≤ BORDER + b.r ∨
    (if b.cx + b.vx ≤ BORDER + b.r then BORDER + b.r else b.cx + b.vx) ≥
      (SCREEN_WIDTH - 1 - BORDER) - b.r

/-- The y-axis registered a boundary hit during bouncer_tick
(`hit_h` in the source), expressed on the pre-tick state. -/
def hitH (b : Bouncer) : Prop :=
  b.cy + b.vy ≤ BORDER + b.r ∨
    (if b.cy + b.vy ≤ BORDER + b.r then BORDER + b.r else b.cy + b.vy) ≥
      (SCREEN_HEIGHT - 1 - BORDER) - b.r

/-! ## Mandelbrot renderer (mandelbrot.c) -/

/-- SAMPLE_H = ((SCREEN_HEIGHT - 2*BORDER) / 2) = 119. -/
def SAMPLE_H : Nat := 119

/-- Modelled from the spec: colorFromRGB (color565 in the source) lives in
the external display library; it packs 8-bit channels into RGB565
(5 red bits, 6 green bits, 5 blue bits). -/
def color565 (r g b : Nat) : Nat :=
  (r % 256 / 8) * 2 ^ 11 + (g % 256 / 4) * 2 ^ 5 + b % 256 / 8

/-- The palette written by palette_init: entry `i` is
color565(i, (i*5) ^ (i<<1), 255 - i) with each channel truncated to
8 bits, except entry 0 which is forced to black. -/
def pal (i : Nat) : Nat :=
  if i = 0 then color565 0 0 0
  else color565 (i % 256) (Nat.xor (i * 5) (i * 2) % 256) ((255 - i % 256) % 256)

/-- in_cardioid_or_bulb: period-2 bulb test then cardioid test, in Q4.28
fixed point (FX_ONE >> 4 = 2^24, FX_ONE >> 2 = 2^26, and `y2 >> 2` is an
arithmetic shift, i.e. floor division by 4). -/
def in_cardioid_or_bulb (cr ci : Int) : Bool :=
  let y2 := fx_mul ci ci
  let x1 := fx_add cr FX_ONE
  let x1_2 := fx_mul x1 x1
  let one_over_16 : Int := 2 ^ 24
  if fx_add x1_2 y2 ≤ one_over_16 then true
  else
    let quarter : Int := 2 ^ 26
    let xm := fx_sub cr quarter
    let q := fx_add (fx_mul xm xm) y2
    let left := fx_mul q (fx_add q xm)
    let right := Int.fdiv y2 4
    decide (left ≤ right)

/-- The escape-time while loop of mandel_color.  `fuel` equals
`max_iter - it`, so `fuel = 0` is exactly the loop guard `it < max_iter`
failing; the returned value is the final `it`.  `two_zr_zi` is
`fx_mul(zr, zi) << 1`, a wrapping 32-bit left shift. -/
def mandelGo (cr ci : Int) : Nat → Nat → Int → Int → Nat
  | 0, it, _, _ => it
  | fuel + 1, it, zr, zi =>
    let zr2 := fx_mul zr zr
    let zi2 := fx_mul zi zi
    if fx_add zr2 zi2 > FX_FOUR then it
    else
      mandelGo cr ci fuel (it + 1)
        (fx_add (fx_sub zr2 zi2) cr)
        (fx_add (toInt32 (2 * fx_mul zr zi)) ci)

/-- Final iteration count of the escape loop started at z = 0 with
iteration cap `mi`. -/
def mandelIt (cr ci : Int) (mi : Nat) : Nat := mandelGo cr ci mi 0 0 0

/-- mandel_color: short-circuit test, escape loop, then palette lookup
with index `(it * 255) / max_iter` truncated to `uint8_t`. -/
def mandel_color (cr ci : Int) (mi : Nat) : Nat :=
  if in_cardioid_or_bulb cr ci then color565 0 0 0
  else
    let it := mandelIt cr ci mi
    if it = mi then color565 0 0 0
    else pal ((it * 255 / mi) % 256)

/-- The MandelAnim struct of mandelbrot.h. -/
structure MandelAnim where
  cx : Int
  cy : Int
  scale : Int
  max_iter : Nat
  y_next : Nat
deriving Repr, DecidableEq

/-- MandelAnim together with the module-static `last_zoom_ms`
(a `uint32_t`). -/
structure MandelSys where
  m : MandelAnim
  last_zoom_ms : Nat
deriving Repr, DecidableEq

/-- do_zoom_step: multiply the scale by the Q4.28 zoom factor and bump
max_iter up to the cap 140. -/
def do_zoom_step (m : MandelAnim) : MandelAnim :=
  { m with
    scale := fx_mul m.scale ZOOM_FX
    max_iter := if m.max_iter < 140 then m.max_iter + 1 else m.max_iter }

/-- mandelbrot_init: the compiled-in center (fx_from_double of
-0.743643887037151 and 0.131825904205330), scale fx_from_double(0.010),
max_iter 64, row cursor 0; `last_zoom_ms` is the boot clock reading
(an arbitrary external input, reduced to `uint32_t`). -/
def mandelbrot_init (now0 : Nat) : MandelSys :=
  { m :=
      { cx := -199620385
        cy := 35386746
        scale := 2684354
        max_iter := 64
        y_next := 0 }
    last_zoom_ms := now0 % 2 ^ 32 }

/-- One iteration of the mandelbrot_tick batch loop: advance the
`uint16_t` row cursor, and on wrapping past SAMPLE_H read the clock
(`now`, an arbitrary external input reduced to `uint32_t`) and apply a
zoom step when at least ZOOM_INTERVAL_MS = 10 ms elapsed (`uint32_t`
subtraction).  The rendering of the scanline writes only to the display
(render_scanline takes the state as a const pointer). -/
def mandel_step (s : MandelSys) (now : Nat) : MandelSys :=
  let y1 := (s.m.y_next + 1) % 65536
  if y1 ≥ SAMPLE_H then
    let nowm := now % 2 ^ 32
    if (nowm + 2 ^ 32 - s.last_zoom_ms) % 2 ^ 32 ≥ 10 then
      { m := do_zoom_step { s.m with y_next := 0 }, last_zoom_ms := nowm }
    else
      { m := { s.m with y_next := 0 }, last_zoom_ms := s.last_zoom_ms }
  else
    { m := { s.m with y_next := y1 }, last_zoom_ms := s.last_zoom_ms }

/-- The batch loop of mandelbrot_tick: `n` remaining iterations, `i` the
current loop index into the stream `nows` of clock readings. -/
def mandelRun (nows : Nat → Nat) : Nat → Nat → MandelSys → MandelSys
  | _, 0, s => s
  | i, n + 1, s => mandelRun nows (i + 1) n (mandel_step s (nows i))

/-- mandelbrot_tick: the `uint16_t` work budget, with 0 treated as 1,
then the batch loop.  `nows` models the monotonic-clock readings taken
during this call. -/
def mandelbrot_tick (s : MandelSys) (lines_per_tick : Nat) (nows : Nat → Nat) :
    MandelSys :=
  let L0 := lines_per_tick % 65536
  mandelRun nows 0 (if L0 = 0 then 1 else L0) s

/-- States reachable from mandelbrot_init by mandelbrot_tick calls with
arbitrary work budgets and arbitrary clock readings. -/
inductive MandelReachable : MandelSys → Prop where
  | init : ∀ now0, MandelReachable (mandelbrot_init now0)
  | tick : ∀ s lines nows, MandelReachable s →
      MandelReachable (mandelbrot_tick s lines nows)

/-- Representation invariant maintained by the renderer state: row cursor
in range, scale a nonnegative `int32_t` value, max_iter between its
initial value and its cap. -/
def MandelWF (s : MandelSys) : Prop :=
  s.m.y_next < SAMPLE_H ∧ 0 ≤ s.m.scale ∧ s.m.scale < 2 ^ 31 ∧
    64 ≤ s.m.max_iter ∧ s.m.max_iter ≤ 140

/-- Iterated zoom multiplication of a scale value (accumulator form):
the scale after `k` further zoom steps. -/
def zoomScaleN : Nat → Int → Int
  | 0, s => s
  | k + 1, s => zoomScaleN k (fx_mul s ZOOM_FX)

/-- The max_iter value after `k` zoom steps starting from 64. -/
def miN : Nat → Nat
  | 0 => 64
  | k + 1 => if miN k < 140 then miN k + 1 else miN k

/-- A concrete execution: init at boot time 0, then full-pass ticks
(119 sample rows each) with the clock advancing 10 ms per pass, so each
pass performs a zoom step. -/
def badTrace : Nat → MandelSys
  | 0 => mandelbrot_init 0
  | k + 1 => mandelbrot_tick (badTrace k) 119 (fun _ => 10 * (k + 1))

/-! ## Helper lemmas -/

theorem toInt32_eq_self {x : Int} (h0 : -(2 ^ 31) ≤ x) (h1 : x < 2 ^ 31) :
    toInt32 x = x := by
  unfold toInt32
  omega

theorem fx_mul_zoom_bounds {s : Int} (h0 : 0 ≤ s) (h1 : s < 2 ^ 31) :
    0 ≤ fx_mul s ZOOM_FX ∧ fx_mul s ZOOM_FX ≤ s ∧
      (0 < s → fx_mul s ZOOM_FX < s) := by
  unfold fx_mul ZOOM_FX
  rw [Int.fdiv_eq_ediv _ (by norm_num)]
  rw [toInt32_eq_self (by omega) (by omega)]
  omega

theorem bouncer_tick_r (b : Bouncer) : (bouncer_tick b).r = b.r := rfl

theorem bouncer_tick_iterate_r (b : Bouncer) (n : Nat) :
    (bouncer_tick^[n] b).r = b.r := by
  induction n with
  | zero => rfl
  | succ m ih => rw [Function.iterate_succ_apply', bouncer_tick_r, ih]

theorem bouncer_tick_bounds (b : Bouncer) (hr0 : 0 ≤ b.r) (hr : b.r ≤ 32) :
    BORDER + b.r ≤ (bouncer_tick b).cx ∧
      (bouncer_tick b).cx ≤ SCREEN_WIDTH - 1 - BORDER - b.r ∧
      BORDER + b.r ≤ (bouncer_tick b).cy ∧
      (bouncer_tick b).cy ≤ SCREEN_HEIGHT - 1 - BORDER - b.r := by
  simp only [bouncer_tick, BORDER, SCREEN_WIDTH, SCREEN_HEIGHT]
  split_ifs <;> simp <;> omega

/-! ## C1 -/

/-- C1: for a state whose radius lies in [0, 32] (as stored by
bouncer_init), a single bouncer_tick leaves the center within
[BORDER + r, dimension - 1 - BORDER - r] on both axes regardless of the
previous center and velocity; hence along every tick sequence from
bouncer_init (with a nonnegative requested radius) the center is in
bounds after every tick. -/
theorem C1_ball_containment (b : Bouncer) (hr0 : 0 ≤ b.r) (hr : b.r ≤ 32) :
    (BORDER + b.r ≤ (bouncer_tick b).cx ∧
      (bouncer_tick b).cx ≤ SCREEN_WIDTH - 1 - BORDER - b.r ∧
      BORDER + b.r ≤ (bouncer_tick b).cy ∧
      (bouncer_tick b).cy ≤ SCREEN_HEIGHT - 1 - BORDER - b.r) ∧
    (∀ (radius vx vy : Int) (bg bo c0 : Nat), 0 ≤ radius → ∀ n : Nat, 1 ≤ n →
      BORDER + (bouncer_tick^[n] (bouncer_init radius vx vy bg bo c0)).r ≤
          (bouncer_tick^[n] (bouncer_init radius vx vy bg bo c0)).cx ∧
        (bouncer_tick^[n] (bouncer_init radius vx vy bg bo c0)).cx ≤
          SCREEN_WIDTH - 1 - BORDER -
            (bouncer_tick^[n] (bouncer_init radius vx vy bg bo c0)).r ∧
        BORDER + (bouncer_tick^[n] (bouncer_init radius vx vy bg bo c0)).r ≤
          (bouncer_tick^[n] (bouncer_init radius vx vy bg bo c0)).cy ∧
        (bouncer_tick^[n] (bouncer_init radius vx vy bg bo c0)).cy ≤
          SCREEN_HEIGHT - 1 - BORDER -
            (bouncer_tick^[n] (bouncer_init radius vx vy bg bo c0)).r) := by
  refine ⟨bouncer_tick_bounds b hr0 hr, ?_⟩
  intro radius vx vy bg bo c0 hrad n hn
  obtain ⟨m, rfl⟩ : ∃ m, n = m + 1 := ⟨n - 1, by omega⟩
  set b0 := bouncer_init radius vx vy bg bo c0 with hb0
  have hr0' : 0 ≤ b0.r ∧ b0.r ≤ 32 := by
    rw [hb0]
    unfold bouncer_init MAX_R
    split_ifs <;> simp <;> omega
  have hiterr : (bouncer_tick^[m] b0).r = b0.r := bouncer_tick_iterate_r b0 m
  rw [Function.iterate_succ_apply', bouncer_tick_r, hiterr]
  have hb := bouncer_tick_bounds (bouncer_tick^[m] b0)
    (by rw [hiterr]; exact hr0'.1) (by rw [hiterr]; exact hr0'.2)
  rw [hiterr] at hb
  exact hb

/-- C1 witness instantiation. -/
theorem C1_ball_containment_witness :
    ((0 : Int) ≤ (12 : Int) ∧ (12 : Int) ≤ 32) ∧
      (BORDER + (12 : Int) ≤
        (bouncer_tick (bouncer_init 12 2 2 0 0 0xF800)).cx) := by
  have h := C1_ball_containment (bouncer_init 12 2 2 0 0 0xF800)
    (by decide) (by decide)
  exact ⟨⟨by decide, by decide⟩, h.1.1⟩

/-! ## C8 -/

theorem bouncer_tick_v (b : Bouncer) :
    ((bouncer_tick b).vx = b.vx ∨ (bouncer_tick b).vx = -b.vx) ∧
      ((bouncer_tick b).vy = b.vy ∨ (bouncer_tick b).vy = -b.vy) := by
  simp only [bouncer_tick]
  split_ifs <;> simp

/-- C8: every bouncer_tick keeps or negates each velocity component and
in particular preserves its absolute value, so the velocity magnitudes
fixed at initialization persist along every tick sequence. -/
theorem C8_velocity_preserved (b : Bouncer) :
    ((bouncer_tick b).vx = b.vx ∨ (bouncer_tick b).vx = -b.vx) ∧
      ((bouncer_tick b).vy = b.vy ∨ (bouncer_tick b).vy = -b.vy) ∧
      ∀ n : Nat, (bouncer_tick^[n] b).vx.natAbs = b.vx.natAbs ∧
        (bouncer_tick^[n] b).vy.natAbs = b.vy.natAbs := by
  refine ⟨(bouncer_tick_v b).1, (bouncer_tick_v b).2, ?_⟩
  intro n
  induction n with
  | zero => exact ⟨rfl, rfl⟩
  | succ m ih =>
    rw [Function.iterate_succ_apply']
    set c := bouncer_tick^[m] b
    have hv := bouncer_tick_v c
    constructor
    · rcases hv.1 with h | h <;> rw [h] <;> simp [ih.1]
    · rcases hv.2 with h | h <;> rw [h] <;> simp [ih.2]

/-! ## C6 -/

/-- C6: next_corner_color steps through the 7-color cycle
red, green, blue, yellow, magenta, cyan, white and back to red, resets
any color outside the palette to red; bouncer_tick advances the fill
color exactly when both axes hit in the same tick, and seven
applications starting from red give red again. -/
theorem C6_corner_cycle (c : Nat) (hc : c ∉ cornerColors) (b : Bouncer) :
    nextCornerColor 0xF800 = 0x07E0 ∧
      nextCornerColor 0x07E0 = 0x001F ∧
      nextCornerColor 0x001F = 0xFFE0 ∧
      nextCornerColor 0xFFE0 = 0xF81F ∧
      nextCornerColor 0xF81F = 0x07FF ∧
      nextCornerColor 0x07FF = 0xFFFF ∧
      nextCornerColor 0xFFFF = 0xF800 ∧
      nextCornerColor c = 0xF800 ∧
      (hitV b ∧ hitH b → (bouncer_tick b).color = nextCornerColor b.color) ∧
      (¬(hitV b ∧ hitH b) → (bouncer_tick b).color = b.color) ∧
      (b.color = 0xF800 → hitV b ∧ hitH b →
        (bouncer_tick b).color = 0x07E0) ∧
      nextCornerColor^[7] 0xF800 = 0xF800 := by
  have hcyc : nextCornerColor 0xF800 = 0x07E0 ∧ nextCornerColor 0x07E0 = 0x001F ∧
      nextCornerColor 0x001F = 0xFFE0 ∧ nextCornerColor 0xFFE0 = 0xF81F ∧
      nextCornerColor 0xF81F = 0x07FF ∧ nextCornerColor 0x07FF = 0xFFFF ∧
      nextCornerColor 0xFFFF = 0xF800 := by decide
  have hout : nextCornerColor c = 0xF800 := by
    simp only [cornerColors, List.mem_cons, List.not_mem_nil, or_false,
      not_or] at hc
    obtain ⟨h1, h2, h3, h4, h5, h6, h7⟩ := hc
    simp [nextCornerColor, cornerFind, cornerColors, Ne.symm h1, Ne.symm h2,
      Ne.symm h3, Ne.symm h4, Ne.symm h5, Ne.symm h6, Ne.symm h7]
  have hthen : hitV b ∧ hitH b → (bouncer_tick b).color = nextCornerColor b.color := by
    intro h
    simp only [bouncer_tick]
    rw [if_pos]
    exact ⟨h.1, h.2⟩
  have helse : ¬(hitV b ∧ hitH b) → (bouncer_tick b).color = b.color := by
    intro h
    simp only [bouncer_tick]
    rw [if_neg]
    intro hcontra
    exact h ⟨hcontra.1, hcontra.2⟩
  refine ⟨hcyc.1, hcyc.2.1, hcyc.2.2.1, hcyc.2.2.2.1, hcyc.2.2.2.2.1,
    hcyc.2.2.2.2.2.1, hcyc.2.2.2.2.2.2, hout, hthen, helse, ?_, by decide⟩
  intro hred hvh
  rw [hthen hvh, hred, hcyc.1]

/-- C6 witness instantiation. -/
theorem C6_corner_cycle_witness :
    (5 : Nat) ∉ cornerColors ∧ nextCornerColor 5 = 0xF800 := by
  have h := C6_corner_cycle 5 (by decide)
    { cx := 0, cy := 0, vx := 0, vy := 0, r := 0, color := 0, bg := 0, border := 0 }
  exact ⟨by decide, h.2.2.2.2.2.2.2.1⟩

/-! ## C9 -/

/-- C9: caller contract violations are silently clamped: bouncer_init
stores radius 32 when asked for more, stores smaller radii unchanged,
and mandelbrot_tick with a zero work budget behaves exactly like a
budget of one; all functions are total and signal nothing. -/
theorem C9_silent_clamping (radius radius2 vx vy : Int) (bg bo c0 : Nat)
    (hr : radius > 32) (hr2 : radius2 ≤ 32) (s : MandelSys)
    (nows : Nat → Nat) :
    (bouncer_init radius vx vy bg bo c0).r = 32 ∧
      (bouncer_init radius2 vx vy bg bo c0).r = radius2 ∧
      mandelbrot_tick s 0 nows = mandelbrot_tick s 1 nows := by
  refine ⟨?_, ?_, rfl⟩
  · unfold bouncer_init MAX_R
    rw [if_pos hr]
  · unfold bouncer_init MAX_R
    rw [if_neg (by omega)]

/-- C9 witness instantiation. -/
theorem C9_silent_clamping_witness :
    (bouncer_init 40 2 2 0 0 0).r = 32 ∧
      (bouncer_init 12 2 2 0 0 0).r = 12 ∧
      mandelbrot_tick (mandelbrot_init 0) 0 (fun _ => 0) =
        mandelbrot_tick (mandelbrot_init 0) 1 (fun _ => 0) :=
  C9_silent_clamping 40 12 2 2 0 0 0 (by decide) (by decide)
    (mandelbrot_init 0) (fun _ => 0)

/-! ## C5 -/

/-- C5: after precompute_circle(r) with r in [0, 32], the half-width
table holds floor(sqrt(r^2 - dy^2)) at every dy in [0, r]; in particular
entry 0 is r, entry r is 0, and the table is non-increasing in dy. -/
theorem C5_halfwidth_table (r dy : Nat) (hr : r ≤ 32) (hdy : dy ≤ r) :
    halfw r dy = Nat.sqrt (r * r - dy * dy) ∧
      halfw r 0 = r ∧
      halfw r r = 0 ∧
      ∀ d1 d2 : Nat, d1 ≤ d2 → d2 ≤ r → halfw r d2 ≤ halfw r d1 := by
  have key2 : ∀ r : Nat, r ≤ 32 → ∀ d : Nat, d ≤ r →
      halfw r d * halfw r d ≤ r * r - d * d ∧
        r * r - d * d < (halfw r d + 1) * (halfw r d + 1) := by decide
  have key : ∀ r : Nat, r ≤ 32 → ∀ d : Nat, d ≤ r →
      halfw r d = Nat.sqrt (r * r - d * d) := fun r hr d hd =>
    Nat.eq_sqrt.mpr (key2 r hr d hd)
  refine ⟨key r hr dy hdy, ?_, ?_, ?_⟩
  · rw [key r hr 0 (Nat.zero_le r)]
    simp [Nat.sqrt_eq]
  · rw [key r hr r le_rfl]
    simp
  · intro d1 d2 h12 h2r
    rw [key r hr d2 h2r, key r hr d1 (le_trans h12 h2r)]
    exact Nat.sqrt_le_sqrt
      (Nat.sub_le_sub_left (Nat.mul_le_mul h12 h12) (r * r))

/-- C5 witness instantiation. -/
theorem C5_halfwidth_table_witness :
    halfw 5 3 = Nat.sqrt (5 * 5 - 3 * 3) ∧ halfw 5 0 = 5 ∧ halfw 5 5 = 0 ∧
      ∀ d1 d2 : Nat, d1 ≤ d2 → d2 ≤ 5 → halfw 5 d2 ≤ halfw 5 d1 :=
  C5_halfwidth_table 5 3 (by decide) (by decide)

/-! ## C7 -/

theorem mandelGo_ge (cr ci : Int) (fuel : Nat) :
    ∀ (it : Nat) (zr zi : Int), it ≤ mandelGo cr ci fuel it zr zi := by
  induction fuel with
  | zero => intro it zr zi; exact Nat.le_refl it
  | succ f ih =>
    intro it zr zi
    simp only [mandelGo]
    split
    · exact Nat.le_refl it
    · exact Nat.le_trans (Nat.le_succ it) (ih (it + 1) _ _)

/-- C7: a point whose fixed-point squared magnitude test exceeds 4, not
caught by the cardioid/bulb short-circuit, escapes in exactly one
iteration of the mandel_color loop whenever the iteration cap is at
least 2. -/
theorem C7_escape_in_one (cr ci : Int) (mi : Nat)
    (hcr0 : -(2 ^ 31) ≤ cr) (hcr1 : cr < 2 ^ 31)
    (hci0 : -(2 ^ 31) ≤ ci) (hci1 : ci < 2 ^ 31)
    (hb : in_cardioid_or_bulb cr ci = false)
    (hesc : FX_FOUR < fx_add (fx_mul cr cr) (fx_mul ci ci))
    (hmi : 2 ≤ mi) :
    mandelIt cr ci mi = 1 := by
  obtain ⟨k, rfl⟩ : ∃ k, mi = k + 2 := ⟨mi - 2, by omega⟩
  have hz : fx_mul (0 : Int) 0 = 0 := by decide
  have hadd0 : fx_add (0 : Int) 0 = 0 := by decide
  have hsub0 : fx_sub (0 : Int) 0 = 0 := by decide
  have h2m : toInt32 (2 * fx_mul (0 : Int) 0) = 0 := by decide
  have haddcr : fx_add 0 cr = cr := by
    unfold fx_add
    rw [zero_add]
    exact toInt32_eq_self hcr0 hcr1
  have haddci : fx_add 0 ci = ci := by
    unfold fx_add
    rw [zero_add]
    exact toInt32_eq_self hci0 hci1
  have hnot : ¬ (fx_add (fx_mul (0 : Int) 0) (fx_mul (0 : Int) 0) > FX_FOUR) := by
    decide
  have ht0 : toInt32 (2 * (0 : Int)) = 0 := by decide
  unfold mandelIt
  show mandelGo cr ci (k + 1 + 1) 0 0 0 = 1
  simp only [mandelGo]
  rw [if_neg hnot]
  have htz : toInt32 (0 : Int) = 0 := by decide
  simp only [hz, hsub0, h2m, mul_zero, ht0, htz, haddcr, haddci, hadd0]
  rw [if_pos hesc]

/-- C7 witness instantiation: c = 2.5i has |c|^2 = 6.25 > 4. -/
theorem C7_escape_in_one_witness : mandelIt 0 671088640 2 = 1 :=
  C7_escape_in_one 0 671088640 2 (by decide) (by decide) (by decide)
    (by decide) (by decide) (by decide) (by decide)

/-! ## C2 -/

/-- C2 (divergence witness): at c = 2.5 + 0i (fx 0x28000000), the 32-bit
squaring of x+1 inside the period-2 bulb test overflows and makes
in_cardioid_or_bulb return true, so mandel_color classifies the point as
interior (black) without iterating, yet the escape-time loop itself
would escape at iteration 1 with |z|^2 = 6.25 > 4 — contradicting the
documented guarantee that the short-circuit regions lie in the set. -/
theorem C2_cardioid_unsound_at_2_5 :
    in_cardioid_or_bulb 671088640 0 = true ∧
      mandel_color 671088640 0 140 = color565 0 0 0 ∧
      mandelIt 671088640 0 140 = 1 ∧ (1 : Nat) < 140 ∧
      FX_FOUR < fx_add (fx_mul 671088640 671088640) (fx_mul 0 0) := by
  refine ⟨by decide, by decide, by decide, by decide, by decide⟩

/-! ## C10 -/

theorem mandelGo_le_add (cr ci : Int) (fuel : Nat) :
    ∀ (it : Nat) (zr zi : Int), mandelGo cr ci fuel it zr zi ≤ it + fuel := by
  induction fuel with
  | zero => intro it zr zi; simp [mandelGo]
  | succ g ih =>
    intro it zr zi
    simp only [mandelGo]
    split
    · omega
    · have := ih (it + 1) (fx_add (fx_sub (fx_mul zr zr) (fx_mul zi zi)) cr)
        (fx_add (toInt32 (2 * fx_mul zr zi)) ci)
      omega

set_option maxRecDepth 4000 in
/-- C10: with any reachable iteration cap in [64, 140], every escaped
point exits the loop with iteration count at least 1 and maps to a
palette index in [1, 254] whose entry is not black, and palette entries
1..255 are all non-black; mandel_color therefore yields pure black
exactly for points classified as in the set (short-circuit or exhausted
cap). -/
theorem C10_black_iff_in_set (cr ci : Int) (mi : Nat)
    (h64 : 64 ≤ mi) (h140 : mi ≤ 140) :
    (mandelIt cr ci mi < mi →
      1 ≤ mandelIt cr ci mi ∧
        1 ≤ mandelIt cr ci mi * 255 / mi ∧
        mandelIt cr ci mi * 255 / mi ≤ 254 ∧
        pal (mandelIt cr ci mi * 255 / mi) ≠ color565 0 0 0) ∧
      (∀ i : Nat, i ≤ 255 → 1 ≤ i → pal i ≠ color565 0 0 0) ∧
      (mandel_color cr ci mi = color565 0 0 0 ↔
        in_cardioid_or_bulb cr ci = true ∨ mandelIt cr ci mi = mi) := by
  have hp : ∀ i : Nat, i ≤ 255 → 1 ≤ i → pal i ≠ color565 0 0 0 := by decide
  have hnot0 : ¬ (fx_add (fx_mul (0 : Int) 0) (fx_mul (0 : Int) 0) > FX_FOUR) := by
    decide
  have hpos : 1 ≤ mandelIt cr ci mi := by
    obtain ⟨k, hk⟩ : ∃ k, mi = k + 1 := ⟨mi - 1, by omega⟩
    unfold mandelIt
    rw [hk]
    simp only [mandelGo]
    rw [if_neg hnot0]
    exact mandelGo_ge cr ci k 1 _ _
  have hidx : mandelIt cr ci mi < mi →
      1 ≤ mandelIt cr ci mi * 255 / mi ∧ mandelIt cr ci mi * 255 / mi ≤ 254 := by
    intro hlt
    constructor
    · rw [Nat.le_div_iff_mul_le (by omega)]
      have h255 : 1 * 255 ≤ mandelIt cr ci mi * 255 :=
        Nat.mul_le_mul_right 255 hpos
      omega
    · have hlt255 : mandelIt cr ci mi * 255 < mi * 255 :=
        (Nat.mul_lt_mul_right (by omega)).mpr hlt
      have : mandelIt cr ci mi * 255 / mi < 255 := by
        rw [Nat.div_lt_iff_lt_mul (by omega)]
        omega
      omega
  refine ⟨?_, hp, ?_⟩
  · intro hlt
    refine ⟨hpos, (hidx hlt).1, (hidx hlt).2, ?_⟩
    exact hp _ (by omega) (hidx hlt).1
  · by_cases hcb : in_cardioid_or_bulb cr ci = true
    · simp [mandel_color, hcb]
    · by_cases hit : mandelIt cr ci mi = mi
      · simp [mandel_color, hcb, hit]
      · have hlt : mandelIt cr ci mi < mi := by
          have := mandelGo_le_add cr ci mi 0 0 0
          unfold mandelIt at hit ⊢
          omega
        have h1 : 1 ≤ mandelIt cr ci mi * 255 / mi := (hidx hlt).1
        have h2 : mandelIt cr ci mi * 255 / mi ≤ 254 := (hidx hlt).2
        have hmod : mandelIt cr ci mi * 255 / mi % 256 =
            mandelIt cr ci mi * 255 / mi := Nat.mod_eq_of_lt (by omega)
        have hne : pal (mandelIt cr ci mi * 255 / mi) ≠ color565 0 0 0 :=
          hp _ (by omega) h1
        simp only [mandel_color]
        rw [if_neg hcb, if_neg hit, hmod]
        simp [hne, hcb, hit]

/-- C10 witness instantiation at the origin with the initial cap. -/
theorem C10_black_iff_in_set_witness :
    pal 7 ≠ color565 0 0 0 ∧
      (mandel_color 0 0 64 = color565 0 0 0 ↔
        in_cardioid_or_bulb 0 0 = true ∨ mandelIt 0 0 64 = 64) := by
  have h := C10_black_iff_in_set 0 0 64 (by decide) (by decide)
  exact ⟨h.2.1 7 (by decide) (by decide), h.2.2⟩

/-! ## C3 -/

/-- C3: a mandelbrot_tick that wraps the row cursor with the minimum
zoom interval elapsed applies exactly one zoom step: the scale is
multiplied by the Q4.28 zoom factor (strictly decreasing whenever it was
positive) and max_iter is incremented exactly when below 140, hence
never decreases and never exceeds 140. -/
theorem C3_zoom_monotone (s : MandelSys) (nows : Nat → Nat)
    (hwrap : (s.m.y_next + 1) % 65536 ≥ SAMPLE_H)
    (helap : (nows 0 % 2 ^ 32 + 2 ^ 32 - s.last_zoom_ms) % 2 ^ 32 ≥ 10)
    (hs0 : 0 ≤ s.m.scale) (hs1 : s.m.scale < 2 ^ 31) :
    (mandelbrot_tick s 1 nows).m.scale = fx_mul s.m.scale ZOOM_FX ∧
      (0 < s.m.scale → (mandelbrot_tick s 1 nows).m.scale < s.m.scale) ∧
      (mandelbrot_tick s 1 nows).m.max_iter =
        (if s.m.max_iter < 140 then s.m.max_iter + 1 else s.m.max_iter) ∧
      s.m.max_iter ≤ (mandelbrot_tick s 1 nows).m.max_iter ∧
      (s.m.max_iter ≤ 140 → (mandelbrot_tick s 1 nows).m.max_iter ≤ 140) := by
  have ht : mandelbrot_tick s 1 nows = mandel_step s (nows 0) := rfl
  have hstep : mandel_step s (nows 0) =
      { m := do_zoom_step { s.m with y_next := 0 },
        last_zoom_ms := nows 0 % 2 ^ 32 } := by
    simp only [mandel_step]
    rw [if_pos hwrap, if_pos helap]
  rw [ht, hstep]
  have hb := fx_mul_zoom_bounds hs0 hs1
  refine ⟨rfl, fun hpos => ?_, rfl, ?_, ?_⟩
  · exact hb.2.2 hpos
  · simp only [do_zoom_step]
    split_ifs <;> omega
  · intro hcap
    simp only [do_zoom_step]
    split_ifs <;> omega

/-- C3 witness instantiation. -/
theorem C3_zoom_monotone_witness :
    (mandelbrot_tick ⟨⟨0, 0, 100, 64, 118⟩, 0⟩ 1 (fun _ => 10)).m.scale =
        fx_mul 100 ZOOM_FX ∧
      ((0 : Int) < 100 →
        (mandelbrot_tick ⟨⟨0, 0, 100, 64, 118⟩, 0⟩ 1 (fun _ => 10)).m.scale < 100) ∧
      (mandelbrot_tick ⟨⟨0, 0, 100, 64, 118⟩, 0⟩ 1 (fun _ => 10)).m.max_iter =
        (if 64 < 140 then 64 + 1 else 64) ∧
      64 ≤ (mandelbrot_tick ⟨⟨0, 0, 100, 64, 118⟩, 0⟩ 1 (fun _ => 10)).m.max_iter ∧
      ((64 : Nat) ≤ 140 →
        (mandelbrot_tick ⟨⟨0, 0, 100, 64, 118⟩, 0⟩ 1 (fun _ => 10)).m.max_iter ≤ 140) :=
  C3_zoom_monotone ⟨⟨0, 0, 100, 64, 118⟩, 0⟩ (fun _ => 10)
    (by decide) (by decide) (by decide) (by decide)

/-! ## C4 -/

theorem mandelbrot_init_WF (now0 : Nat) : MandelWF (mandelbrot_init now0) := by
  unfold MandelWF mandelbrot_init SAMPLE_H
  refine ⟨by norm_num, by norm_num, by norm_num, by norm_num, by norm_num⟩

theorem mandel_step_WF (s : MandelSys) (now : Nat) (h : MandelWF s) :
    MandelWF (mandel_step s now) := by
  obtain ⟨hy, h0, h1, h64, h140⟩ := h
  have hb := fx_mul_zoom_bounds h0 h1
  unfold MandelWF SAMPLE_H at *
  simp only [mandel_step]
  split_ifs with hw he
  · simp only [do_zoom_step, SAMPLE_H]
    refine ⟨by norm_num, hb.1, by omega, ?_, ?_⟩ <;> split_ifs <;> omega
  · exact ⟨by norm_num [SAMPLE_H], h0, h1, h64, h140⟩
  · refine ⟨?_, h0, h1, h64, h140⟩
    simp only [SAMPLE_H] at hw ⊢
    omega

theorem mandelRun_WF (nows : Nat → Nat) :
    ∀ (n i : Nat) (s : MandelSys), MandelWF s → MandelWF (mandelRun nows i n s) := by
  intro n
  induction n with
  | zero => intro i s h; exact h
  | succ m ih =>
    intro i s h
    exact ih (i + 1) (mandel_step s (nows i)) (mandel_step_WF s (nows i) h)

theorem mandelbrot_tick_WF (s : MandelSys) (lines : Nat) (nows : Nat → Nat)
    (h : MandelWF s) : MandelWF (mandelbrot_tick s lines nows) :=
  mandelRun_WF nows _ 0 s h

theorem mandelReachable_WF (s : MandelSys) (h : MandelReachable s) :
    MandelWF s := by
  induction h with
  | init now0 => exact mandelbrot_init_WF now0
  | tick t lines nows _ ih => exact mandelbrot_tick_WF t lines nows ih

/-- C4 (amended: `scale > 0` weakened to `scale ≥ 0`): every state
reachable from mandelbrot_init satisfies y_next in [0, SAMPLE_H),
scale ≥ 0, and max_iter in [64, 140]. -/
theorem C4_invariant (s : MandelSys) (h : MandelReachable s) :
    s.m.y_next < SAMPLE_H ∧ 0 ≤ s.m.scale ∧
      64 ≤ s.m.max_iter ∧ s.m.max_iter ≤ 140 := by
  have hwf := mandelReachable_WF s h
  exact ⟨hwf.1, hwf.2.1, hwf.2.2.2.1, hwf.2.2.2.2⟩

/-- C4 witness instantiation. -/
theorem C4_invariant_witness :
    (mandelbrot_init 0).m.y_next < SAMPLE_H ∧
      0 ≤ (mandelbrot_init 0).m.scale ∧
      64 ≤ (mandelbrot_init 0).m.max_iter ∧
      (mandelbrot_init 0).m.max_iter ≤ 140 :=
  C4_invariant (mandelbrot_init 0) (MandelReachable.init 0)

theorem zoomScaleN_add (a b : Nat) (s : Int) :
    zoomScaleN (a + b) s = zoomScaleN b (zoomScaleN a s) := by
  induction a generalizing s with
  | zero => rw [Nat.zero_add]; rfl
  | succ k ih =>
    have h : k + 1 + b = (k + b) + 1 := by omega
    rw [h]
    show zoomScaleN (k + b) (fx_mul s ZOOM_FX) = _
    rw [ih]
    rfl

theorem zoomScaleN_succ (k : Nat) (s : Int) :
    zoomScaleN (k + 1) s = fx_mul (zoomScaleN k s) ZOOM_FX := by
  rw [zoomScaleN_add k 1 s]
  rfl

set_option maxRecDepth 3000 in
theorem zoomScaleN_chain :
    zoomScaleN 74 2684354 = 877223 ∧ zoomScaleN 74 877223 = 286654 ∧
      zoomScaleN 74 286654 = 93654 ∧ zoomScaleN 74 93654 = 30585 ∧
      zoomScaleN 74 30585 = 9975 ∧ zoomScaleN 74 9975 = 3238 ∧
      zoomScaleN 74 3238 = 1035 ∧ zoomScaleN 74 1035 = 317 ∧
      zoomScaleN 74 317 = 82 ∧ zoomScaleN 74 82 = 0 := by
  decide

/-- After 740 zoom steps the Q4.28 scale value has underflowed to 0. -/
theorem zoomScaleN_740 : zoomScaleN 740 2684354 = 0 := by
  have h := zoomScaleN_chain
  calc zoomScaleN 740 2684354
      = zoomScaleN 666 877223 := by
        rw [show (740 : Nat) = 74 + 666 by norm_num, zoomScaleN_add, h.1]
    _ = zoomScaleN 592 286654 := by
        rw [show (666 : Nat) = 74 + 592 by norm_num, zoomScaleN_add, h.2.1]
    _ = zoomScaleN 518 93654 := by
        rw [show (592 : Nat) = 74 + 518 by norm_num, zoomScaleN_add, h.2.2.1]
    _ = zoomScaleN 444 30585 := by
        rw [show (518 : Nat) = 74 + 444 by norm_num, zoomScaleN_add, h.2.2.2.1]
    _ = zoomScaleN 370 9975 := by
        rw [show (444 : Nat) = 74 + 370 by norm_num, zoomScaleN_add, h.2.2.2.2.1]
    _ = zoomScaleN 296 3238 := by
        rw [show (370 : Nat) = 74 + 296 by norm_num, zoomScaleN_add, h.2.2.2.2.2.1]
    _ = zoomScaleN 222 1035 := by
        rw [show (296 : Nat) = 74 + 222 by norm_num, zoomScaleN_add,
          h.2.2.2.2.2.2.1]
    _ = zoomScaleN 148 317 := by
        rw [show (222 : Nat) = 74 + 148 by norm_num, zoomScaleN_add,
          h.2.2.2.2.2.2.2.1]
    _ = zoomScaleN 74 82 := by
        rw [show (148 : Nat) = 74 + 74 by norm_num, zoomScaleN_add,
          h.2.2.2.2.2.2.2.2.1]
    _ = 0 := h.2.2.2.2.2.2.2.2.2

theorem mandelRun_countup (nows : Nat → Nat) :
    ∀ (n i : Nat) (s : MandelSys), s.m.y_next + n + 1 = SAMPLE_H →
      mandelRun nows i (n + 1) s =
        mandel_step ⟨{ s.m with y_next := SAMPLE_H - 1 }, s.last_zoom_ms⟩
          (nows (i + n)) := by
  intro n
  induction n with
  | zero =>
    intro i s h
    have hy : s.m.y_next = SAMPLE_H - 1 := by
      unfold SAMPLE_H at *
      omega
    obtain ⟨⟨cx, cy, sc, mi, y⟩, l⟩ := s
    simp only at hy
    subst hy
    rw [Nat.add_zero]
    rfl
  | succ n ih =>
    intro i s h
    have hnw : ¬ ((s.m.y_next + 1) % 65536 ≥ SAMPLE_H) := by
      unfold SAMPLE_H at *
      omega
    have hmod : (s.m.y_next + 1) % 65536 = s.m.y_next + 1 := by
      unfold SAMPLE_H at h
      omega
    have hstep : mandel_step s (nows i) =
        ⟨{ s.m with y_next := s.m.y_next + 1 }, s.last_zoom_ms⟩ := by
      simp only [mandel_step]
      rw [if_neg hnw, hmod]
    show mandelRun nows (i + 1) (n + 1) (mandel_step s (nows i)) = _
    rw [hstep]
    rw [ih (i + 1) ⟨{ s.m with y_next := s.m.y_next + 1 }, s.last_zoom_ms⟩
      (by simp only; unfold SAMPLE_H at *; omega)]
    have hidx : i + 1 + n = i + (n + 1) := by omega
    rw [hidx]

/-- A tick with a full pass worth of rows from row 0, with the zoom
interval elapsed at the wrap, performs exactly the zoom step. -/
theorem mandel_full_pass (s : MandelSys) (nows : Nat → Nat)
    (h0 : s.m.y_next = 0)
    (helap : (nows 118 % 2 ^ 32 + 2 ^ 32 - s.last_zoom_ms) % 2 ^ 32 ≥ 10) :
    mandelbrot_tick s 119 nows =
      ⟨do_zoom_step { s.m with y_next := 0 }, nows 118 % 2 ^ 32⟩ := by
  have h1 : mandelbrot_tick s 119 nows = mandelRun nows 0 119 s := rfl
  rw [h1, show (119 : Nat) = 118 + 1 by norm_num,
    mandelRun_countup nows 118 0 s (by rw [h0]; norm_num [SAMPLE_H])]
  rw [show (0 : Nat) + 118 = 118 by norm_num]
  simp only [mandel_step]
  rw [if_pos (by norm_num [SAMPLE_H]), if_pos helap]

theorem badTrace_reachable (k : Nat) : MandelReachable (badTrace k) := by
  induction k with
  | zero => exact MandelReachable.init 0
  | succ n ih => exact MandelReachable.tick _ 119 _ ih

theorem badTrace_closed (k : Nat) (hk : k ≤ 1000) :
    badTrace k =
      ⟨⟨-199620385, 35386746, zoomScaleN k 2684354, miN k, 0⟩, 10 * k⟩ := by
  induction k with
  | zero => rfl
  | succ n ih =>
    have hn : n ≤ 1000 := by omega
    show mandelbrot_tick (badTrace n) 119 (fun _ => 10 * (n + 1)) = _
    rw [ih hn]
    rw [mandel_full_pass _ _ rfl (by simp only; omega)]
    simp only [do_zoom_step]
    rw [← zoomScaleN_succ]
    have hmod : 10 * (n + 1) % 2 ^ 32 = 10 * (n + 1) :=
      Nat.mod_eq_of_lt (by omega)
    rw [hmod]
    conv_rhs => rw [miN]

/-- C4 counterexample: the state after 740 full passes (each with the
zoom interval elapsed) is reachable, and its scale has underflowed to 0,
so the claimed invariant `scale > 0` fails on it. -/
theorem C4_scale_positive_fails :
    MandelReachable (badTrace 740) ∧ ¬ (0 < (badTrace 740).m.scale) := by
  refine ⟨badTrace_reachable 740, ?_⟩
  rw [badTrace_closed 740 (by norm_num)]
  simp only
  rw [zoomScaleN_740]
  omega

end DW
